import Mathlib

/-!
Verification of the penny expense-tracking backend's persistence and query
core: the hashing service, the classification cache, the category store, the
deduplicating expense store, the reporting engine and the classification
orchestration.  Python sources are embedded shallowly: dictionaries become
association structures, SQLAlchemy queries become list operations on an
explicit database state, machine words in SHA-256 become `Nat` values reduced
modulo `2 ^ 32`, and fallible commits return `Except`.
-/

set_option maxHeartbeats 1000000
set_option maxRecDepth 100000

namespace Penny

/-! ## JSON values

`json.dumps`-serializable data as passed to `normalize_for_hash` in
`backend/database/services/hashing.py`.  Python dictionaries and lists are
modelled by a mutual inductive family so that every function on them can be
defined by structural recursion (and hence evaluated by the kernel).
Floating point payload values are outside the scope of the claims; numbers
are modelled as integers. -/

mutual

inductive JValue where
  | jnull : JValue
  | jbool : Bool → JValue
  | jint : Int → JValue
  | jstr : String → JValue
  | jarr : JArr → JValue
  | jobj : JObj → JValue

inductive JArr where
  | anil : JArr
  | acons : JValue → JArr → JArr

inductive JObj where
  | onil : JObj
  | ocons : String → JValue → JObj → JObj

end

/-! ## Hexadecimal rendering -/

/-- The sixteen lowercase hexadecimal digit characters. -/
def hexDigits : List Char :=
  "0123456789abcdef".data

/-- Lowercase hexadecimal digit for a value below 16 (as produced by Python's
hex formatting of digest bytes and unicode escapes). -/
def hexDigit (n : Nat) : Char :=
  hexDigits.getD n '0'

/-- Two lowercase hex characters for one byte, as in `hexdigest()`. -/
def byteHex (b : Nat) : List Char :=
  [hexDigit (b / 16 % 16), hexDigit (b % 16)]

/-! ## UTF-8 encoding

`str.encode("utf-8")`: code points to bytes. -/

def utf8Char (c : Char) : List Nat :=
  let n := c.toNat
  if n < 0x80 then [n]
  else if n < 0x800 then [0xC0 + n / 64, 0x80 + n % 64]
  else if n < 0x10000 then [0xE0 + n / 4096, 0x80 + n / 64 % 64, 0x80 + n % 64]
  else [0xF0 + n / 262144, 0x80 + n / 4096 % 64, 0x80 + n / 64 % 64, 0x80 + n % 64]

def utf8 (s : String) : List Nat :=
  (s.data.map utf8Char).flatten

/-! ## SHA-256 (`hashlib.sha256`)

Bytes are `Nat` values below 256; 32-bit words are `Nat` values reduced
modulo `2 ^ 32` after every arithmetic step. -/

def wordMod : Nat := 4294967296

def wadd (a b : Nat) : Nat := (a + b) % wordMod

def rotr (n x : Nat) : Nat := ((x >>> n) ||| (x <<< (32 - n))) % wordMod

def smallSigma0 (x : Nat) : Nat := (rotr 7 x) ^^^ (rotr 18 x) ^^^ (x >>> 3)

def smallSigma1 (x : Nat) : Nat := (rotr 17 x) ^^^ (rotr 19 x) ^^^ (x >>> 10)

def bigSigma0 (x : Nat) : Nat := (rotr 2 x) ^^^ (rotr 13 x) ^^^ (rotr 22 x)

def bigSigma1 (x : Nat) : Nat := (rotr 6 x) ^^^ (rotr 11 x) ^^^ (rotr 25 x)

def chWord (x y z : Nat) : Nat := (x &&& y) ^^^ ((x ^^^ 4294967295) &&& z)

def majWord (x y z : Nat) : Nat := (x &&& y) ^^^ (x &&& z) ^^^ (y &&& z)

/-- The eight-word SHA-256 working state. -/
structure Words8 where
  a : Nat
  b : Nat
  c : Nat
  d : Nat
  e : Nat
  f : Nat
  g : Nat
  h : Nat

/-- The eight initial hash words of FIPS 180-4 (decimal rendering). -/
def initHash : Words8 :=
  ⟨1779033703, 3144134277, 1013904242, 2773480762,
   1359893119, 2600822924, 528734635, 1541459225⟩

/-- The 64 round constants of FIPS 180-4 (decimal rendering). -/
def roundConstants : List Nat :=
  [1116352408, 1899447441, 3049323471, 3921009573, 961987163,
   1508970993, 2453635748, 2870763221, 3624381080, 310598401,
   607225278, 1426881987, 1925078388, 2162078206, 2614888103,
   3248222580, 3835390401, 4022224774, 264347078, 604807628,
   770255983, 1249150122, 1555081692, 1996064986, 2554220882,
   2821834349, 2952996808, 3210313671, 3336571891, 3584528711,
   113926993, 338241895, 666307205, 773529912, 1294757372,
   1396182291, 1695183700, 1986661051, 2177026350, 2456956037,
   2730485921, 2820302411, 3259730800, 3345764771, 3516065817,
   3600352804, 4094571909, 275423344, 430227734, 506948616,
   659060556, 883997877, 958139571, 1322822218, 1537002063,
   1747873779, 1955562222, 2024104815, 2227730452, 2361852424,
   2428436474, 2756734187, 3204031479, 3329325298]

/-- Big-endian 32-bit words from a list of bytes. -/
def bytesToWords : List Nat → List Nat
  | b0 :: b1 :: b2 :: b3 :: rest =>
    (((b0 * 256 + b1) * 256 + b2) * 256 + b3) :: bytesToWords rest
  | _ => []

/-- Message-schedule extension; `acc` holds the schedule produced so far in
reverse order. -/
def extendSchedule : Nat → List Nat → List Nat
  | 0, acc => acc.reverse
  | n + 1, acc =>
    let w := wadd (wadd (smallSigma1 (acc.getD 1 0)) (acc.getD 6 0))
                  (wadd (smallSigma0 (acc.getD 14 0)) (acc.getD 15 0))
    extendSchedule n (w :: acc)

/-- One compression round; `kw` is the round constant already added to the
schedule word. -/
def sha256Round (s : Words8) (kw : Nat) : Words8 :=
  let t1 := wadd (wadd (wadd s.h (bigSigma1 s.e)) (chWord s.e s.f s.g)) kw
  let t2 := wadd (bigSigma0 s.a) (majWord s.a s.b s.c)
  ⟨wadd t1 t2, s.a, s.b, s.c, wadd s.d t1, s.e, s.f, s.g⟩

def compressBlock (s : Words8) (block : List Nat) : Words8 :=
  let ws := extendSchedule 48 (bytesToWords block).reverse
  let t := (roundConstants.zip ws).foldl (fun st kw => sha256Round st (wadd kw.1 kw.2)) s
  ⟨wadd s.a t.a, wadd s.b t.b, wadd s.c t.c, wadd s.d t.d,
   wadd s.e t.e, wadd s.f t.f, wadd s.g t.g, wadd s.h t.h⟩

/-- Split a byte list into 64-byte chunks; the padded SHA-256 message always
has a positive multiple of 64 bytes. -/
def chunks64Go (acc : List Nat) (n : Nat) : List Nat → List (List Nat)
  | [] => [acc.reverse]
  | b :: rest =>
    match n with
    | 0 => acc.reverse :: chunks64Go [b] 63 rest
    | m + 1 => chunks64Go (b :: acc) m rest

def chunks64 (bytes : List Nat) : List (List Nat) :=
  chunks64Go [] 64 bytes

/-- Big-endian 8-byte encoding of the bit length. -/
def lengthBytes (l : Nat) : List Nat :=
  [l >>> 56 % 256, l >>> 48 % 256, l >>> 40 % 256, l >>> 32 % 256,
   l >>> 24 % 256, l >>> 16 % 256, l >>> 8 % 256, l % 256]

/-- Big-endian bytes of one 32-bit word. -/
def wordBytes (w : Nat) : List Nat :=
  [w >>> 24 % 256, w >>> 16 % 256, w >>> 8 % 256, w % 256]

/-- The 32-byte SHA-256 digest of a byte message. -/
def sha256Bytes (msg : List Nat) : List Nat :=
  let padded :=
    msg ++ 0x80 :: List.replicate ((119 - msg.length % 64) % 64) 0 ++
      lengthBytes (msg.length * 8)
  let fin := (chunks64 padded).foldl compressBlock initHash
  wordBytes fin.a ++ wordBytes fin.b ++ wordBytes fin.c ++ wordBytes fin.d ++
    wordBytes fin.e ++ wordBytes fin.f ++ wordBytes fin.g ++ wordBytes fin.h

/-- `hashlib.sha256(msg).hexdigest()`. -/
def sha256hex (msg : List Nat) : String :=
  ⟨((sha256Bytes msg).map byteHex).flatten⟩

/-! ## JSON serialization (`json.dumps(..., sort_keys=True, separators=(",", ":"))`)

The canonical encoding used by `normalize_for_hash`.  Separators carry no
whitespace; object keys are sorted; `ensure_ascii` (the `json.dumps` default)
escapes every character outside `0x20`-`0x7E`. -/

/-- Unicode escape `\uXXXX` with lowercase hex, as produced by Python. -/
def uEscape (n : Nat) : List Char :=
  ['\\', 'u', hexDigit (n / 4096 % 16), hexDigit (n / 256 % 16),
   hexDigit (n / 16 % 16), hexDigit (n % 16)]

/-- Escape one character of a JSON string the way CPython's `ensure_ascii`
encoder does: short escapes for the common control characters, `\uXXXX`
(with a surrogate pair above `0xFFFF`) for everything outside `0x20`-`0x7E`. -/
def escapeChar (c : Char) : List Char :=
  if c = '"' then ['\\', '"']
  else if c = '\\' then ['\\', '\\']
  else if c = '\n' then ['\\', 'n']
  else if c = '\t' then ['\\', 't']
  else if c = '\r' then ['\\', 'r']
  else if c.toNat = 8 then ['\\', 'b']
  else if c.toNat = 12 then ['\\', 'f']
  else if 0x20 ≤ c.toNat && c.toNat ≤ 0x7E then [c]
  else if c.toNat < 0x10000 then uEscape c.toNat
  else uEscape (0xD800 + (c.toNat - 0x10000) / 1024) ++
       uEscape (0xDC00 + (c.toNat - 0x10000) % 1024)

/-- JSON string literal: quotes around the escaped character data. -/
def encodeJStr (s : String) : List Char :=
  '"' :: (s.data.map escapeChar).flatten ++ ['"']

/-- Decimal rendering of an integer, as Python serializes `int`. -/
def intChars (n : Int) : List Char :=
  match n with
  | .ofNat m => (Nat.repr m).data
  | .negSucc m => '-' :: (Nat.repr (m + 1)).data

/-- Comma-join, matching the `","` item separator. -/
def joinComma : List (List Char) → List Char
  | [] => []
  | [x] => x
  | x :: xs => x ++ ',' :: joinComma xs

/-- Lexicographic code-point comparison of character lists: the order Python
uses on `str` and SQLite's BINARY collation on UTF-8 text (UTF-8 byte order
agrees with code-point order). -/
def keyLeChars : List Char → List Char → Bool
  | x :: xs, y :: ys =>
    if x.toNat < y.toNat then true
    else if y.toNat < x.toNat then false
    else keyLeChars xs ys
  | [], _ => true
  | _, [] => false

def keyLe (a b : String) : Bool := keyLeChars a.data b.data

/-- Key order used by `sort_keys=True`: Python compares the key strings by
code point. -/
def pairLe (a b : String × List Char) : Prop := keyLe a.1 b.1 = true

instance : DecidableRel pairLe := fun a b =>
  inferInstanceAs (Decidable (keyLe a.1 b.1 = true))

/-- Rendered `"key":value` members of an object. -/
def renderFields (ps : List (String × List Char)) : List (List Char) :=
  ps.map (fun p => encodeJStr p.1 ++ ':' :: p.2)

mutual

/-- `json.dumps` with sorted keys and compact separators.  Sorting the
`(key, rendered value)` pairs by key is the same as sorting the members by
key before rendering, since the comparison looks only at the key. -/
def dumps : JValue → List Char
  | .jnull => ['n', 'u', 'l', 'l']
  | .jbool true => ['t', 'r', 'u', 'e']
  | .jbool false => ['f', 'a', 'l', 's', 'e']
  | .jint n => intChars n
  | .jstr s => encodeJStr s
  | .jarr xs => '[' :: joinComma (dumpArr xs) ++ [']']
  | .jobj fs =>
    '\x7b' :: joinComma (renderFields ((dumpFields fs).insertionSort pairLe)) ++ ['\x7d']

def dumpArr : JArr → List (List Char)
  | .anil => []
  | .acons v t => dumps v :: dumpArr t

def dumpFields : JObj → List (String × List Char)
  | .onil => []
  | .ocons k v t => (k, dumps v) :: dumpFields t

end

/-- `normalize_for_hash(payload)` from `database/services/hashing.py`:
the canonical compact JSON encoding of a dictionary. -/
def normalize_for_hash (fs : JObj) : String :=
  ⟨dumps (.jobj fs)⟩

/-- The `str` branch of `hash(text)`: SHA-256 of the UTF-8 bytes, as a
lowercase hex digest. -/
def hashText (text : String) : String :=
  sha256hex (utf8 text)

/-- The `dict` branch of `hash(text)` from `database/services/hashing.py`:
normalize, then digest. -/
def hash (fs : JObj) : String :=
  hashText (normalize_for_hash fs)

/-! ## Deep equality and well-formedness of JSON records -/

/-- Field lookup by key (Python dictionaries have at most one entry per
key; on the embedded list the first match is taken). -/
def lookupField (k : String) : JObj → Option JValue
  | .onil => none
  | .ocons k2 v t => if k2 = k then some v else lookupField k t

def olength : JObj → Nat
  | .onil => 0
  | .ocons _ _ t => olength t + 1

def keysOf : JObj → List String
  | .onil => []
  | .ocons k _ t => k :: keysOf t

/-- Key lists without duplicates, as for a Python dictionary. -/
def nodupKeys : List String → Bool
  | [] => true
  | k :: ks => !(ks.contains k) && nodupKeys ks

mutual

/-- Key-order-insensitive deep equality: scalars agree, arrays agree
pointwise, and objects have the same number of fields with every field of
the left object present (up to deep equality) in the right one. -/
def jeqb : JValue → JValue → Bool
  | .jnull, .jnull => true
  | .jbool a, .jbool b => a == b
  | .jint a, .jint b => a == b
  | .jstr a, .jstr b => a == b
  | .jarr a, .jarr b => jeqArr a b
  | .jobj a, .jobj b => olength a == olength b && jeqFields a b
  | _, _ => false

def jeqArr : JArr → JArr → Bool
  | .anil, .anil => true
  | .acons v t, .acons v2 t2 => jeqb v v2 && jeqArr t t2
  | _, _ => false

def jeqFields : JObj → JObj → Bool
  | .onil, _ => true
  | .ocons k v t, fs2 =>
    (match lookupField k fs2 with
     | some v2 => jeqb v v2
     | none => false) && jeqFields t fs2

end

mutual

/-- A record is well formed when, at every nesting level, object keys are
duplicate-free — the invariant every Python dictionary satisfies. -/
def wfb : JValue → Bool
  | .jnull => true
  | .jbool _ => true
  | .jint _ => true
  | .jstr _ => true
  | .jarr xs => wfArr xs
  | .jobj fs => nodupKeys (keysOf fs) && wfFields fs

def wfArr : JArr → Bool
  | .anil => true
  | .acons v t => wfb v && wfArr t

def wfFields : JObj → Bool
  | .onil => true
  | .ocons _ v t => wfb v && wfFields t

end

/-! ## SQL LIKE matching

SQLAlchemy's `Column.ilike(arg)` compiles to a case-insensitive SQL `LIKE`:
`%` matches any (possibly empty) character sequence, `_` matches exactly one
character, and letters are compared after ASCII case folding (SQLite's
default `LIKE` / `lower()` behaviour, which is what Lean's `Char.toLower`
implements as well).  The matcher is written with explicit fuel so that it is
structurally recursive; `pattern.length + text.length + 1` steps always
suffice. -/

def likeGo : Nat → List Char → List Char → Bool
  | 0, _, _ => false
  | _ + 1, [], t => t.isEmpty
  | fuel + 1, p :: ps, t =>
    if p = '%' then
      likeGo fuel ps t ||
        (match t with
         | [] => false
         | _ :: ts => likeGo fuel (p :: ps) ts)
    else
      match t with
      | [] => false
      | c :: ts =>
        if p = '_' then likeGo fuel ps ts
        else p.toLower == c.toLower && likeGo fuel ps ts

/-- `column LIKE pattern` (case-insensitive), total string match. -/
def likeMatch (pattern text : String) : Bool :=
  likeGo (pattern.length + text.length + 1) pattern.data text.data

/-- ASCII case folding of a string, as Python's `str.lower` and SQLite's
`lower()` behave on the ASCII names this repository uses.  (Core
`String.toLower` is not used because its position-based recursion does not
reduce in the kernel.) -/
def lowerStr (s : String) : String := ⟨s.data.map Char.toLower⟩

/-! ## Database state

Rows of the three tables from `database/tables.py`, with an explicit
autoincrement counter per table.  Timestamps play no role in any claim and
are omitted; `amount` (a float column) is modelled as a rational number —
no claim depends on floating-point rounding. -/

structure CategoryRow where
  id : Nat
  name : String
  description : String
  is_active : Bool
deriving DecidableEq

structure ExpenseRow where
  id : Nat
  date : Int
  amount : ℚ
  description : String
  category_id : Nat
  hash : Option String
deriving DecidableEq

structure CacheRow where
  hash : String
  category_id : Nat
deriving DecidableEq

/-- The persistent state: table contents in insertion (rowid) order plus the
next autoincrement ids (SQLite assigns ids from 1). -/
structure DBState where
  categories : List CategoryRow
  nextCategoryId : Nat
  expenses : List ExpenseRow
  nextExpenseId : Nat
  cache : List CacheRow
deriving DecidableEq

/-! ## Category store (`database/repos/categories.py`,
`Database.get_or_create_other` / `resolve_category_id` /
`get_active_category_names_with_other`) -/

/-- `get_or_create_other`: first row whose name matches `other`
case-insensitively, else a fresh active row named `"other"`.  `.first()`
without an `ORDER BY` returns rows in rowid (insertion) order. -/
def getOrCreateOther (st : DBState) : Nat × DBState :=
  match st.categories.find? (fun c => likeMatch "other" c.name) with
  | some c => (c.id, st)
  | none =>
    (st.nextCategoryId,
     { st with
        categories :=
          st.categories ++ [⟨st.nextCategoryId, "other", "Fallback category", true⟩],
        nextCategoryId := st.nextCategoryId + 1 })

/-- `resolve_category_id(name, fallback_other_id)`: case-insensitive `ilike`
lookup; on a miss return the fallback if given, else create-or-return
`"other"`. -/
def resolveCategoryId (st : DBState) (name : String) (fallback_other_id : Option Nat) :
    Nat × DBState :=
  match st.categories.find? (fun c => likeMatch name c.name) with
  | some c => (c.id, st)
  | none =>
    match fallback_other_id with
    | some f => (f, st)
    | none => getOrCreateOther st

/-- Row order of `ORDER BY categories.name` (SQLite BINARY collation). -/
def catNameLe (a b : CategoryRow) : Prop := keyLe a.name b.name = true

instance : DecidableRel catNameLe := fun a b =>
  inferInstanceAs (Decidable (keyLe a.name b.name = true))

/-- The name list assembled by `get_active_category_names_with_other` before
the `[:limit]` truncation: sorted active names, `["other"]` when empty, and
`"other"` appended when not already present case-insensitively. -/
def activeNamesAssembled (st : DBState) : List String :=
  let names0 := ((st.categories.filter (fun c => c.is_active)).insertionSort catNameLe).map
    (fun c => c.name)
  let names1 := if names0 = [] then ["other"] else names0
  if (names1.map lowerStr).contains "other" then names1 else names1 ++ ["other"]

/-- `get_active_category_names_with_other(limit)` (identical logic in
`CategoryRepo.active_names_with_other`): returns the truncated name list,
the id of `"other"`, and the state after the ensure-other step. -/
def getActiveNamesWithOther (st : DBState) (limit : Nat) : List String × Nat × DBState :=
  let r := getOrCreateOther st
  ((activeNamesAssembled r.2).take limit, r.1, r.2)

/-! ## Classification cache (`database/repos/cache.py`,
`Database.cache_lookup` / `cache_write`) -/

/-- `cache_lookup(tx)`: hash the normalized payload and point-look-up the
primary key. -/
def cacheLookup (st : DBState) (tx : JObj) : Option Nat :=
  ((st.cache.find? (fun r => decide (r.hash = hash tx))).map (fun r => r.category_id))

/-- In-place update of the row holding `key` (the ORM mutates the fetched
row and commits). -/
def cacheUpd : List CacheRow → String → Nat → List CacheRow
  | [], _, _ => []
  | r :: rest, key, c =>
    if r.hash = key then { r with category_id := c } :: rest
    else r :: cacheUpd rest key c

/-- `cache_write(tx, category_id)`: upsert keyed by the content hash. -/
def cacheWrite (st : DBState) (tx : JObj) (category_id : Nat) : DBState :=
  let key := hash tx
  if st.cache.any (fun r => decide (r.hash = key)) then
    { st with cache := cacheUpd st.cache key category_id }
  else
    { st with cache := st.cache ++ [⟨key, category_id⟩] }

/-! ## Expense store (`database/repos/expenses.py`) -/

/-- Storage-layer failures surfaced by a commit. -/
inductive DBErr where
  | integrityError : DBErr
deriving DecidableEq

/-- `ExpenseRepo._key_for_raw`: `hash(raw) if raw else None` — `None` and the
empty dictionary are falsy. -/
def keyForRaw (raw : Option JObj) : Option String :=
  match raw with
  | none => none
  | some .onil => none
  | some fs => some (hash fs)

/-- `ExpenseRepo._find_id_by_hash`: id of the first row carrying the hash. -/
def findIdByHash (st : DBState) (key : String) : Option Nat :=
  (st.expenses.find? (fun r => decide (r.hash = some key))).map (fun r => r.id)

/-- The dedupe pre-check of `ExpenseRepo.add`: the guard is
`if dedupe_on_hash and hash_val:` and the hit test is `if existing_id:`, so
an empty-string hash and a zero id are treated as misses (Python
truthiness). -/
def dedupeHit (st : DBState) (dedupe_on_hash : Bool) (hash_val : Option String) :
    Option Nat :=
  match hash_val, dedupe_on_hash with
  | some h, true =>
    if h = "" then none
    else
      match findIdByHash st h with
      | some i => if i = 0 then none else some i
      | none => none
  | _, _ => none

/-- The `session.add` / `commit` step of `ExpenseRepo.add`: appends the row
unless the `expenses.hash` UNIQUE constraint is violated, in which case the
commit raises and — there being no handler in the repository — the error
propagates.  (`description or ""` maps an empty description to `""`.) -/
def insertExpense (st : DBState) (date : Int) (amount : ℚ) (description : String)
    (category_id : Nat) (hash_val : Option String) : Except DBErr (Nat × DBState) :=
  let conflict :=
    match hash_val with
    | some h => st.expenses.any (fun r => decide (r.hash = some h))
    | none => false
  if conflict then .error .integrityError
  else
    .ok (st.nextExpenseId,
      { st with
          expenses := st.expenses ++
            [⟨st.nextExpenseId, date, amount,
              (if description = "" then "" else description), category_id, hash_val⟩],
          nextExpenseId := st.nextExpenseId + 1 })

/-- `ExpenseRepo.add` (the same dedupe logic as `Database.add_expense`):
hash the raw payload, return an existing row's id when deduping finds one,
otherwise insert. -/
def addExpense (st : DBState) (date : Int) (amount : ℚ) (description : String)
    (category_id : Nat) (raw : Option JObj) (dedupe_on_hash : Bool) :
    Except DBErr (Nat × DBState) :=
  let hash_val := keyForRaw raw
  match dedupeHit st dedupe_on_hash hash_val with
  | some i => .ok (i, st)
  | none => insertExpense st date amount description category_id hash_val

/-- The loser of a dedupe race, step by step: its pre-check ran against `st`
before the winner's insert landed, the winner (`addExpense` on `st`)
committed, and then the loser's own insert runs against the winner's
post-insert state. -/
def dedupeRaceLoser (st : DBState) (date : Int) (amount : ℚ) (description : String)
    (category_id : Nat) (raw : Option JObj) : Except DBErr (Nat × DBState) :=
  let hash_val := keyForRaw raw
  match addExpense st date amount description category_id raw true with
  | .error e => .error e
  | .ok (_, st') =>
    match dedupeHit st true hash_val with
    | some i => .ok (i, st')
    | none => insertExpense st' date amount description category_id hash_val

/-- Modelled from the spec: `ResultOrder`, the ascending/descending result
order flag imported by the expense repository from
`database.services.reporting` but not present under `src/`. -/
inductive ResultOrder where
  | asc : ResultOrder
  | desc : ResultOrder
deriving DecidableEq

/-- A row of the `ExpenseRepo.between` result (expense columns joined with
the category name). -/
structure ExpenseOut where
  id : Nat
  date : Int
  amount : ℚ
  description : String
  category_id : Nat
  category_name : String
deriving DecidableEq

/-- `ORDER BY date DESC, id DESC`. -/
def betweenDesc (a b : ExpenseOut) : Prop :=
  b.date < a.date ∨ (a.date = b.date ∧ b.id ≤ a.id)

instance : DecidableRel betweenDesc := fun a b =>
  inferInstanceAs (Decidable (b.date < a.date ∨ (a.date = b.date ∧ b.id ≤ a.id)))

/-- `ORDER BY date ASC, id ASC`. -/
def betweenAsc (a b : ExpenseOut) : Prop :=
  a.date < b.date ∨ (a.date = b.date ∧ a.id ≤ b.id)

instance : DecidableRel betweenAsc := fun a b =>
  inferInstanceAs (Decidable (a.date < b.date ∨ (a.date = b.date ∧ a.id ≤ b.id)))

/-- `ExpenseRepo.between(start, end, category_id, limit, offset, order)`:
inner join with `categories`, inclusive date filter, optional category
filter, deterministic `(date, id)` order, and `LIMIT ... OFFSET ...` applied
only when a limit is supplied. -/
def expensesBetween (st : DBState) (start end_ : Int) (category_id : Option Nat)
    (limit : Option Nat) (offset : Nat) (order : ResultOrder) : List ExpenseOut :=
  let joined := st.expenses.filterMap (fun e =>
    match st.categories.find? (fun c => decide (c.id = e.category_id)) with
    | some c => some ⟨e.id, e.date, e.amount, e.description, e.category_id, c.name⟩
    | none => none)
  let filtered := joined.filter (fun r =>
    decide (start ≤ r.date) && decide (r.date ≤ end_) &&
      (match category_id with
       | some cid => decide (r.category_id = cid)
       | none => true))
  let sorted :=
    match order with
    | .desc => filtered.insertionSort betweenDesc
    | .asc => filtered.insertionSort betweenAsc
  match limit with
  | some l => (sorted.drop offset).take l
  | none => sorted

/-! ## Reporting engine (`database/services/reporting.py`,
`totals_by_category_between`) -/

/-- A row of the totals report. -/
structure TotalRow where
  category_id : Nat
  category_name : String
  is_active : Bool
  total : ℚ
deriving DecidableEq

/-- The `only_active` filter: `True` keeps active categories, `False` keeps
inactive ones, `None` keeps all. -/
def activePass (only_active : Option Bool) (c : CategoryRow) : Bool :=
  match only_active with
  | some true => c.is_active
  | some false => !c.is_active
  | none => true

/-- Date-range membership of an expense (SQL `BETWEEN` is inclusive). -/
def expInRange (start end_ : Int) (e : ExpenseRow) : Bool :=
  decide (start ≤ e.date) && decide (e.date ≤ end_)

/-- `ORDER BY total DESC, category_name ASC`. -/
def totalsDesc (a b : TotalRow) : Prop :=
  b.total < a.total ∨ (a.total = b.total ∧ keyLe a.category_name b.category_name = true)

instance : DecidableRel totalsDesc := fun a b =>
  inferInstanceAs (Decidable (b.total < a.total ∨
    (a.total = b.total ∧ keyLe a.category_name b.category_name = true)))

/-- `ORDER BY total ASC, category_name ASC`. -/
def totalsAsc (a b : TotalRow) : Prop :=
  a.total < b.total ∨ (a.total = b.total ∧ keyLe a.category_name b.category_name = true)

instance : DecidableRel totalsAsc := fun a b =>
  inferInstanceAs (Decidable (a.total < b.total ∨
    (a.total = b.total ∧ keyLe a.category_name b.category_name = true)))

/-- `totals_by_category_between`: with `include_zero` a LEFT OUTER JOIN
anchored on the category set (date filter in the ON clause), otherwise an
INNER JOIN with the date filter as a WHERE clause; grouped per category
(`categories.id` is the primary key, so each category is its own group),
summed with `COALESCE(SUM(amount), 0.0)`, ordered by total then name, and
truncated only when a limit is supplied. -/
def totals_by_category_between (st : DBState) (start_date end_date : Int)
    (only_active : Option Bool) (include_zero : Bool) (order : String)
    (limit : Option Nat) (offset : Nat) : List TotalRow :=
  let cats := st.categories.filter (activePass only_active)
  let matching := fun (c : CategoryRow) =>
    st.expenses.filter (fun e =>
      decide (e.category_id = c.id) && expInRange start_date end_date e)
  let rows :=
    if include_zero then
      cats.map (fun c =>
        ⟨c.id, c.name, c.is_active, ((matching c).map (fun e => e.amount)).sum⟩)
    else
      cats.filterMap (fun c =>
        match matching c with
        | [] => none
        | es => some ⟨c.id, c.name, c.is_active, (es.map (fun e => e.amount)).sum⟩)
  let sorted :=
    if order = "asc" then rows.insertionSort totalsAsc
    else rows.insertionSort totalsDesc
  match limit with
  | some l => (sorted.drop offset).take l
  | none => sorted

/-! ## Classification orchestration (`backend/gpt_classifier.py`)

The external classifier collaborator (`_request_model_choice`, out of scope
per the spec) is a parameter returning a category-name string; `classify`
reports, alongside the resulting category id and the updated state, how many
times the miss path ran — that path performs exactly one vocabulary fetch
and one collaborator invocation. -/

def classify (oracle : JObj → List String → String) (st : DBState) (tx : JObj) :
    Nat × DBState × Nat :=
  match cacheLookup st tx with
  | some c => (c, st, 0)
  | none =>
    let fetched := getActiveNamesWithOther st 50
    let chosen := oracle tx fetched.1
    let resolved := resolveCategoryId fetched.2.2 chosen (some fetched.2.1)
    (resolved.1, cacheWrite resolved.2 tx resolved.1, 1)

/-- `classify_batch`: `[self.classify(tx) for tx in txs]`, threading the
database state left to right and accumulating the miss-path count. -/
def classify_batch (oracle : JObj → List String → String) (st : DBState) :
    List JObj → List Nat × DBState × Nat
  | [] => ([], st, 0)
  | tx :: txs =>
    let r := classify oracle st tx
    let rest := classify_batch oracle r.2.1 txs
    (r.1 :: rest.1, rest.2.1, r.2.2 + rest.2.2)

/-! ## Digest format lemmas -/

theorem sha256Bytes_length (msg : List Nat) : (sha256Bytes msg).length = 32 := by
  simp [sha256Bytes, wordBytes]

theorem flatten_byteHex_length (bs : List Nat) :
    ((bs.map byteHex).flatten).length = 2 * bs.length := by
  induction bs with
  | nil => simp
  | cons b rest ih => simp [byteHex, ih]; omega

theorem sha256hex_length (msg : List Nat) : (sha256hex msg).length = 64 := by
  show ((sha256Bytes msg).map byteHex).flatten.length = 64
  rw [flatten_byteHex_length, sha256Bytes_length]

theorem hexDigit_mem (n : Nat) : hexDigit n ∈ hexDigits := by
  unfold hexDigit
  by_cases h : n < hexDigits.length
  · rw [List.getD_eq_getElem _ _ h]
    exact List.getElem_mem _
  · rw [List.getD_eq_default _ _ (by omega)]
    decide

theorem sha256hex_chars (msg : List Nat) :
    ∀ c ∈ (sha256hex msg).data, c ∈ hexDigits := by
  intro c hc
  have hm : c ∈ ((sha256Bytes msg).map byteHex).flatten := hc
  rw [List.mem_flatten] at hm
  obtain ⟨l, hl, hcl⟩ := hm
  rw [List.mem_map] at hl
  obtain ⟨b, _, rfl⟩ := hl
  simp only [byteHex, List.mem_cons, List.mem_singleton] at hcl
  rcases hcl with rfl | rfl | h
  · exact hexDigit_mem _
  · exact hexDigit_mem _
  · cases h

theorem hash_length (fs : JObj) : (hash fs).length = 64 :=
  sha256hex_length _

theorem hash_ne_empty (fs : JObj) : hash fs ≠ "" := by
  intro h
  have hl := hash_length fs
  rw [h] at hl
  exact absurd hl (by decide)

/-! ## Cache lemmas -/

theorem cacheUpd_find (l : List CacheRow) (key : String) (c : Nat)
    (h : l.any (fun r => decide (r.hash = key)) = true) :
    ((cacheUpd l key c).find? (fun r => decide (r.hash = key))).map
      (fun r => r.category_id) = some c := by
  induction l with
  | nil => simp at h
  | cons r rest ih =>
    by_cases hr : r.hash = key
    · simp [cacheUpd, hr, List.find?_cons_of_pos]
    · have h' : rest.any (fun r => decide (r.hash = key)) = true := by
        simpa [hr] using h
      simpa [cacheUpd, hr, List.find?_cons_of_neg] using ih h'

theorem find?_append_of_none {α : Type} {p : α → Bool} (l l2 : List α)
    (h : l.any p = false) : (l ++ l2).find? p = l2.find? p := by
  induction l with
  | nil => simp
  | cons r rest ih =>
    simp only [Bool.or_eq_false_iff, List.any_cons] at h
    simp [List.find?_cons_of_neg, h.1, ih h.2]

theorem lookup_after_write (st : DBState) (tx : JObj) (c : Nat) :
    cacheLookup (cacheWrite st tx c) tx = some c := by
  unfold cacheLookup cacheWrite
  by_cases hany : st.cache.any (fun r => decide (r.hash = hash tx)) = true
  · simpa [hany] using cacheUpd_find st.cache (hash tx) c hany
  · rw [Bool.not_eq_true] at hany
    simp [hany, find?_append_of_none _ _ hany, List.find?]

theorem cacheUpd_count (l : List CacheRow) (key : String) (c : Nat)
    (hnd : (l.map (fun r => r.hash)).Nodup)
    (h : l.any (fun r => decide (r.hash = key)) = true) :
    ((cacheUpd l key c).filter (fun r => decide (r.hash = key))).length = 1 := by
  induction l with
  | nil => simp at h
  | cons r rest ih =>
    rw [List.map_cons, List.nodup_cons] at hnd
    by_cases hr : r.hash = key
    · have hrest : rest.filter (fun x => decide (x.hash = key)) = [] := by
        rw [List.filter_eq_nil_iff]
        intro x hx
        simp only [decide_eq_true_eq]
        intro hxk
        exact hnd.1 (hr ▸ hxk ▸ List.mem_map_of_mem _ hx)
      simp [cacheUpd, hr, List.filter_cons, hrest]
    · have h' : rest.any (fun x => decide (x.hash = key)) = true := by
        simpa [hr] using h
      simp [cacheUpd, hr, List.filter_cons, ih hnd.2 h']

theorem cacheUpd_values (l : List CacheRow) (key : String) (c : Nat)
    (hnd : (l.map (fun r => r.hash)).Nodup) :
    ∀ x ∈ cacheUpd l key c, x.hash = key → x.category_id = c := by
  induction l with
  | nil => simp [cacheUpd]
  | cons r rest ih =>
    rw [List.map_cons, List.nodup_cons] at hnd
    intro x hx hxk
    by_cases hr : r.hash = key
    · rw [cacheUpd, if_pos hr] at hx
      rcases List.mem_cons.mp hx with rfl | hx
      · rfl
      · exact absurd (hr ▸ hxk ▸ List.mem_map_of_mem _ hx) hnd.1
    · rw [cacheUpd, if_neg hr] at hx
      rcases List.mem_cons.mp hx with rfl | hx
      · exact absurd hxk hr
      · exact ih hnd.2 x hx hxk

/-- C2 — the classification-cache write is an upsert that keeps at most one
entry per hash: starting from any cache state whose primary-key column is
duplicate-free, after `write(tx, c)` there is exactly one entry keyed by
`hash(tx)`, every entry with that key stores `c` (an existing entry is
overwritten, never duplicated), and an immediately following `lookup(tx)`
returns `c`. -/
theorem c2_cache_write_upsert (st : DBState) (tx : JObj) (c : Nat)
    (hwf : (st.cache.map (fun r => r.hash)).Nodup) :
    ((cacheWrite st tx c).cache.filter (fun r => decide (r.hash = hash tx))).length = 1 ∧
    (∀ r ∈ (cacheWrite st tx c).cache, r.hash = hash tx → r.category_id = c) ∧
    cacheLookup (cacheWrite st tx c) tx = some c := by
  refine ⟨?_, ?_, lookup_after_write st tx c⟩ <;>
    unfold cacheWrite <;>
    by_cases hany : st.cache.any (fun r => decide (r.hash = hash tx)) = true
  · simpa [hany] using cacheUpd_count st.cache (hash tx) c hwf hany
  · rw [Bool.not_eq_true] at hany
    have hnil : st.cache.filter (fun r => decide (r.hash = hash tx)) = [] := by
      rw [List.filter_eq_nil_iff]
      intro x hx hxk
      rw [List.any_eq_false] at hany
      exact hany x hx hxk
    simp [hany, List.filter_append, hnil]
  · intro r hr
    simp only [hany, if_true] at hr
    exact cacheUpd_values st.cache (hash tx) c hwf r hr
  · rw [Bool.not_eq_true] at hany
    intro r hr
    simp only [hany, Bool.false_eq_true, if_false] at hr
    rcases List.mem_append.mp hr with hr | hr
    · rw [List.any_eq_false] at hany
      intro hk
      exact absurd (by simpa using hk) (hany r hr)
    · intro _
      rcases List.mem_singleton.mp hr with rfl
      rfl

/-- C2 witness: a concrete instantiation of the upsert theorem. -/
theorem c2_cache_write_upsert_witness :
    ((([] : List CacheRow).map (fun r => r.hash)).Nodup) ∧
    (((cacheWrite ⟨[], 1, [], 1, []⟩ (.ocons "a" (.jint 1) .onil) 7).cache.filter
        (fun r => decide (r.hash = hash (.ocons "a" (.jint 1) .onil)))).length = 1 ∧
      (∀ r ∈ (cacheWrite ⟨[], 1, [], 1, []⟩ (.ocons "a" (.jint 1) .onil) 7).cache,
        r.hash = hash (.ocons "a" (.jint 1) .onil) → r.category_id = 7) ∧
      cacheLookup (cacheWrite ⟨[], 1, [], 1, []⟩ (.ocons "a" (.jint 1) .onil) 7)
        (.ocons "a" (.jint 1) .onil) = some 7) :=
  ⟨by decide, c2_cache_write_upsert ⟨[], 1, [], 1, []⟩ (.ocons "a" (.jint 1) .onil) 7 (by decide)⟩

/-- C3 — classification stability via the cache: classifying the same
payload twice runs the miss path (one vocabulary fetch plus one external
classifier invocation) at most once in total, and both calls return the same
category id. -/
theorem c3_classify_stable (oracle : JObj → List String → String)
    (st : DBState) (tx : JObj) :
    (classify oracle ((classify oracle st tx).2.1) tx).1 = (classify oracle st tx).1 ∧
    (classify oracle st tx).2.2 + (classify oracle ((classify oracle st tx).2.1) tx).2.2 ≤ 1 := by
  cases hl : cacheLookup st tx with
  | some c => simp [classify, hl]
  | none => simp [classify, hl, lookup_after_write]

/-! ## Expense store lemmas -/

/-- The invariant the expense table maintains: SQLite assigns ids from 1 and
the UNIQUE constraint keeps non-null hashes distinct. -/
def StoreWF (st : DBState) : Prop :=
  (∀ r ∈ st.expenses, 1 ≤ r.id) ∧ 1 ≤ st.nextExpenseId ∧
    st.expenses.Pairwise (fun a b => a.hash = none ∨ a.hash ≠ b.hash)

theorem filter_hash_le_one (l : List ExpenseRow) (key : String)
    (hp : l.Pairwise (fun a b => a.hash = none ∨ a.hash ≠ b.hash)) :
    (l.filter (fun r => decide (r.hash = some key))).length ≤ 1 := by
  induction l with
  | nil => simp
  | cons r rest ih =>
    rw [List.pairwise_cons] at hp
    by_cases hr : r.hash = some key
    · have hrest : rest.filter (fun x => decide (x.hash = some key)) = [] := by
        rw [List.filter_eq_nil_iff]
        intro x hx
        simp only [decide_eq_true_eq]
        intro hxk
        rcases hp.1 x hx with h0 | hne
        · rw [h0] at hr; cases hr
        · exact hne (hr.trans hxk.symm)
      simp [List.filter_cons, hr, hrest]
    · simpa [List.filter_cons, hr] using ih hp.2

theorem findIdByHash_some (st : DBState) (key : String) (i : Nat)
    (h : findIdByHash st key = some i) :
    ∃ r ∈ st.expenses, r.id = i ∧ r.hash = some key := by
  unfold findIdByHash at h
  rcases Option.map_eq_some'.mp h with ⟨r, hf, hid⟩
  refine ⟨r, List.mem_of_find?_eq_some hf, hid, ?_⟩
  have := List.find?_some hf
  simpa using this

theorem findIdByHash_none (st : DBState) (key : String)
    (h : findIdByHash st key = none) :
    ∀ r ∈ st.expenses, r.hash ≠ some key := by
  unfold findIdByHash at h
  rw [Option.map_eq_none'] at h
  rw [List.find?_eq_none] at h
  intro r hr
  simpa using h r hr

/-- C1 — idempotent dedupe-insert: from any well-formed store, adding the
same non-empty raw payload twice with `dedupe_on_hash = True` succeeds both
times with the same id, and afterwards exactly one expense row carries the
payload's content hash. -/
theorem c1_addWithDedupe_idempotent (st : DBState) (hwf : StoreWF st)
    (p : JObj) (hp : p ≠ .onil) (d : Int) (a : ℚ) (desc : String) (cid : Nat) :
    ∃ i st1 st2,
      addExpense st d a desc cid (some p) true = .ok (i, st1) ∧
      addExpense st1 d a desc cid (some p) true = .ok (i, st2) ∧
      (st2.expenses.filter (fun r => decide (r.hash = some (hash p)))).length = 1 := by
  obtain ⟨hids, hnext, hpair⟩ := hwf
  have hkey : keyForRaw (some p) = some (hash p) := by
    cases p with
    | onil => exact absurd rfl hp
    | ocons k v t => rfl
  have hne : ¬(hash p = "") := hash_ne_empty p
  cases hfind : findIdByHash st (hash p) with
  | some i =>
    obtain ⟨r, hrmem, hrid, hrk⟩ := findIdByHash_some st (hash p) i hfind
    have hi1 : 1 ≤ i := hrid ▸ hids r hrmem
    have hi0 : ¬(i = 0) := by omega
    have hadd : addExpense st d a desc cid (some p) true = .ok (i, st) := by
      simp [addExpense, hkey, dedupeHit, hne, hfind, hi0]
    refine ⟨i, st, st, hadd, hadd, ?_⟩
    have hub := filter_hash_le_one st.expenses (hash p) hpair
    have hlb : 0 < (st.expenses.filter (fun r => decide (r.hash = some (hash p)))).length := by
      apply List.length_pos.mpr
      exact List.ne_nil_of_mem (List.mem_filter.mpr ⟨hrmem, by simpa using hrk⟩)
    omega
  | none =>
    have hnot := findIdByHash_none st (hash p) hfind
    have hany : st.expenses.any (fun r => decide (r.hash = some (hash p))) = false := by
      rw [List.any_eq_false]
      intro r hr
      simpa using hnot r hr
    have hfil : st.expenses.filter (fun r => decide (r.hash = some (hash p))) = [] := by
      rw [List.filter_eq_nil_iff]
      intro x hx
      simpa using hnot x hx
    have h0 : ¬(st.nextExpenseId = 0) := by omega
    have hfind2 : findIdByHash
        { st with
            expenses := st.expenses ++
              [⟨st.nextExpenseId, d, a, (if desc = "" then "" else desc), cid, some (hash p)⟩],
            nextExpenseId := st.nextExpenseId + 1 } (hash p) = some st.nextExpenseId := by
      unfold findIdByHash
      rw [show ({ st with
            expenses := st.expenses ++
              [⟨st.nextExpenseId, d, a, (if desc = "" then "" else desc), cid, some (hash p)⟩],
            nextExpenseId := st.nextExpenseId + 1 } : DBState).expenses =
          st.expenses ++
            [⟨st.nextExpenseId, d, a, (if desc = "" then "" else desc), cid, some (hash p)⟩]
        from rfl]
      rw [find?_append_of_none _ _ hany]
      simp [List.find?]
    refine ⟨st.nextExpenseId,
      { st with
          expenses := st.expenses ++
            [⟨st.nextExpenseId, d, a, (if desc = "" then "" else desc), cid, some (hash p)⟩],
          nextExpenseId := st.nextExpenseId + 1 },
      { st with
          expenses := st.expenses ++
            [⟨st.nextExpenseId, d, a, (if desc = "" then "" else desc), cid, some (hash p)⟩],
          nextExpenseId := st.nextExpenseId + 1 }, ?_, ?_, ?_⟩
    · simp [addExpense, hkey, dedupeHit, hne, hfind, insertExpense, hany]
    · simp [addExpense, hkey, dedupeHit, hne, hfind2, h0]
    · simp only [List.filter_append, hfil, List.nil_append]
      simp [List.filter]

/-- C1 witness: the dedupe-insert theorem at a concrete empty store and a
one-field payload. -/
theorem c1_addWithDedupe_idempotent_witness :
    StoreWF ⟨[], 1, [], 1, []⟩ ∧ (JObj.ocons "a" (.jint 1) .onil ≠ .onil) ∧
    ∃ i st1 st2,
      addExpense ⟨[], 1, [], 1, []⟩ 0 1 "" 1 (some (.ocons "a" (.jint 1) .onil)) true =
        .ok (i, st1) ∧
      addExpense st1 0 1 "" 1 (some (.ocons "a" (.jint 1) .onil)) true = .ok (i, st2) ∧
      (st2.expenses.filter
        (fun r => decide (r.hash = some (hash (.ocons "a" (.jint 1) .onil))))).length = 1 :=
  ⟨⟨by simp, by decide, by simp⟩, fun h => JObj.noConfusion h,
    c1_addWithDedupe_idempotent ⟨[], 1, [], 1, []⟩ ⟨by simp, by decide, by simp⟩
      (.ocons "a" (.jint 1) .onil) (fun h => JObj.noConfusion h) 0 1 "" 1⟩

/-! ## Category store lemmas -/

theorem assembled_contains_other (st : DBState) :
    ∃ n ∈ activeNamesAssembled st, lowerStr n = "other" := by
  unfold activeNamesAssembled
  set names0 := ((st.categories.filter (fun c => c.is_active)).insertionSort catNameLe).map
    (fun c => c.name) with hn0
  set names1 := if names0 = [] then ["other"] else names0 with hn1
  by_cases hc : (names1.map lowerStr).contains "other" = true
  · simp only [hc, if_true]
    have hmem : ("other" : String) ∈ names1.map lowerStr := List.elem_iff.mp hc
    obtain ⟨n, hn, hln⟩ := List.mem_map.mp hmem
    exact ⟨n, hn, hln⟩
  · rw [Bool.not_eq_true] at hc
    simp only [hc, Bool.false_eq_true, if_false]
    exact ⟨"other", by simp, by decide⟩

theorem assembled_of_no_active (st : DBState)
    (h : st.categories.filter (fun c => c.is_active) = []) :
    activeNamesAssembled st = ["other"] := by
  unfold activeNamesAssembled
  rw [h]
  rfl

/-- C4 counterexample — the claim fails for a limit smaller than the
assembled name list: with one active category `"apple"` and an inactive
`"other"` on file, `listActiveNamesWithOther(limit = 1)` returns
`["apple"]`, which contains no name equal to `"other"` up to case (the code
truncates with `names[:limit]` after appending `"other"`). -/
theorem c4_counterexample :
    ¬ ∃ n ∈ (getActiveNamesWithOther
        ⟨[⟨1, "apple", "", true⟩, ⟨2, "other", "", false⟩], 3, [], 1, []⟩ 1).1,
      lowerStr n = "other" := by decide

/-- C4 amended — the returned list contains a name equal to `"other"` up to
case whenever the assembled list fits within the limit (in particular for
the default limit of 50 with at most 49 active categories); and when no
active categories exist and the limit is at least 1 the result is exactly
`["other"]`. -/
theorem c4_amended_contains_other (st : DBState) (limit : Nat) :
    ((activeNamesAssembled (getOrCreateOther st).2).length ≤ limit →
      ∃ n ∈ (getActiveNamesWithOther st limit).1, lowerStr n = "other") ∧
    ((getOrCreateOther st).2.categories.filter (fun c => c.is_active) = [] → 1 ≤ limit →
      (getActiveNamesWithOther st limit).1 = ["other"]) := by
  constructor
  · intro hlen
    have htake : (activeNamesAssembled (getOrCreateOther st).2).take limit
        = activeNamesAssembled (getOrCreateOther st).2 := List.take_of_length_le hlen
    simp only [getActiveNamesWithOther, htake]
    exact assembled_contains_other _
  · intro hempty hlim
    simp only [getActiveNamesWithOther, assembled_of_no_active _ hempty]
    cases limit with
    | zero => omega
    | succ n => simp

/-- C4 amended witness: the amended theorem applied at the counterexample
state with the default limit 50, and at a state with no active category. -/
theorem c4_amended_contains_other_witness :
    (∃ n ∈ (getActiveNamesWithOther
        ⟨[⟨1, "apple", "", true⟩, ⟨2, "other", "", false⟩], 3, [], 1, []⟩ 50).1,
      lowerStr n = "other") ∧
    (getActiveNamesWithOther ⟨[⟨2, "other", "", false⟩], 3, [], 1, []⟩ 50).1 = ["other"] :=
  ⟨(c4_amended_contains_other
      ⟨[⟨1, "apple", "", true⟩, ⟨2, "other", "", false⟩], 3, [], 1, []⟩ 50).1 (by decide),
   (c4_amended_contains_other ⟨[⟨2, "other", "", false⟩], 3, [], 1, []⟩ 50).2
      (by decide) (by decide)⟩

/-! ## LIKE-matching lemmas -/

/-- A pattern without the SQL LIKE wildcards `%` and `_`. -/
def noWildcards (s : String) : Bool :=
  s.data.all (fun c => !(c == '%') && !(c == '_'))

theorem likeGo_no_wild (fuel : Nat) :
    ∀ p t : List Char, p.length + t.length < fuel →
      (∀ c ∈ p, c ≠ '%' ∧ c ≠ '_') →
      (likeGo fuel p t = true ↔ p.map Char.toLower = t.map Char.toLower) := by
  induction fuel with
  | zero =>
    intro p t h _
    omega
  | succ n ih =>
    intro p t hlen hw
    cases p with
    | nil =>
      cases t with
      | nil => simp [likeGo]
      | cons tc ts => simp [likeGo, List.isEmpty]
    | cons pc ps =>
      have hpc := hw pc (List.mem_cons_self pc ps)
      simp only [likeGo]
      rw [if_neg hpc.1]
      cases t with
      | nil => simp
      | cons tc ts =>
        dsimp only
        rw [if_neg hpc.2]
        rw [Bool.and_eq_true, beq_iff_eq,
          ih ps ts (by simp at hlen ⊢; omega) (fun c hc => hw c (List.mem_cons_of_mem _ hc))]
        simp only [List.map_cons, List.cons.injEq]

theorem likeMatch_no_wild (pattern text : String) (hw : noWildcards pattern = true) :
    (likeMatch pattern text = true ↔
      pattern.data.map Char.toLower = text.data.map Char.toLower) := by
  unfold likeMatch
  apply likeGo_no_wild
  · have h1 : pattern.length = pattern.data.length := rfl
    have h2 : text.length = text.data.length := rfl
    omega
  · intro c hc
    have := List.all_eq_true.mp hw c hc
    simp only [Bool.and_eq_true, Bool.not_eq_true', beq_eq_false_iff_ne] at this
    exact this

/-- C5 counterexample — `resolve` is not an exact lookup: `ilike` compiles
to SQL LIKE, whose `_` wildcard matches any character.  With the
case-insensitively unique category names `"ab"` (id 1) and `"a_"` (id 2) on
file, resolving `"a_"` — exactly the name of category 2 — matches `"ab"`
first and returns id 1, not 2. -/
theorem c5_counterexample :
    ((([⟨1, "ab", "", true⟩, ⟨2, "a_", "", true⟩] : List CategoryRow).map
        (fun c => lowerStr c.name)).Nodup) ∧
    (resolveCategoryId ⟨[⟨1, "ab", "", true⟩, ⟨2, "a_", "", true⟩], 3, [], 1, []⟩
        "a_" none).1 = 1 := by
  constructor <;> decide

/-- C5 amended — for category names free of the LIKE wildcards `%` and `_`,
`resolve` is a case-insensitive exact lookup: every wildcard-free casing of
exactly such a category's name resolves to that category's id (and to no
other), given the case-insensitive name-uniqueness invariant; and for a
name whose pattern matches no category, a caller-supplied fallback id is
returned unchanged, without touching the state (hence without creating any
category row). -/
theorem c5_amended_resolve (st : DBState)
    (hwf : (st.categories.map (fun c => lowerStr c.name)).Nodup) :
    (∀ c ∈ st.categories, noWildcards c.name = true →
      ∀ s : String, noWildcards s = true → lowerStr s = lowerStr c.name →
      ∀ fb : Option Nat, resolveCategoryId st s fb = (c.id, st)) ∧
    (∀ (s : String) (fb : Nat), (∀ c ∈ st.categories, likeMatch s c.name = false) →
      resolveCategoryId st s (some fb) = (fb, st)) := by
  constructor
  · intro c hc hcw s hsw hsl fb
    have hmatch : ∀ r : CategoryRow, likeMatch s r.name = true ↔ lowerStr r.name = lowerStr s := by
      intro r
      rw [likeMatch_no_wild s r.name hsw]
      constructor
      · intro h
        show (⟨r.name.data.map Char.toLower⟩ : String) = ⟨s.data.map Char.toLower⟩
        rw [h]
      · intro h
        have h2 : (lowerStr r.name).data = (lowerStr s).data := by rw [h]
        exact (h2 : r.name.data.map Char.toLower = s.data.map Char.toLower).symm
    have hcm : likeMatch s c.name = true := (hmatch c).mpr (by rw [hsl])
    have hsome : (st.categories.find? (fun r => likeMatch s r.name)).isSome := by
      rw [List.find?_isSome]
      exact ⟨c, hc, hcm⟩
    obtain ⟨r, hr⟩ := Option.isSome_iff_exists.mp hsome
    have hrmem := List.mem_of_find?_eq_some hr
    have hrp := List.find?_some hr
    have hrl : lowerStr r.name = lowerStr c.name := by rw [(hmatch r).mp hrp, hsl]
    have hrc : r = c := List.inj_on_of_nodup_map hwf hrmem hc hrl
    unfold resolveCategoryId
    rw [hr, hrc]
  · intro s fb hnone
    have hfind : st.categories.find? (fun r => likeMatch s r.name) = none := by
      rw [List.find?_eq_none]
      intro r hr
      simp [hnone r hr]
    unfold resolveCategoryId
    rw [hfind]

/-- C5 amended witness: with only `"groceries"` (id 1) on file, every casing
of `"groceries"` resolves to 1, and `resolve_category_id("Nonexistent",
fallback_other_id=5)` returns 5 without touching the state. -/
theorem c5_amended_resolve_witness :
    ((([⟨1, "groceries", "", true⟩] : List CategoryRow).map
        (fun c => lowerStr c.name)).Nodup) ∧
    resolveCategoryId ⟨[⟨1, "groceries", "", true⟩], 2, [], 1, []⟩ "GROCERIES" none =
      (1, ⟨[⟨1, "groceries", "", true⟩], 2, [], 1, []⟩) ∧
    resolveCategoryId ⟨[⟨1, "groceries", "", true⟩], 2, [], 1, []⟩ "Nonexistent" (some 5) =
      (5, ⟨[⟨1, "groceries", "", true⟩], 2, [], 1, []⟩) :=
  ⟨by decide,
   (c5_amended_resolve ⟨[⟨1, "groceries", "", true⟩], 2, [], 1, []⟩ (by decide)).1
     ⟨1, "groceries", "", true⟩ (by decide) (by decide) "GROCERIES" (by decide) (by decide) none,
   (c5_amended_resolve ⟨[⟨1, "groceries", "", true⟩], 2, [], 1, []⟩ (by decide)).2
     "Nonexistent" 5 (by decide)⟩

/-! ## Dedupe race (C8) -/

/-- C8 counterexample — a lost dedupe race is not converted into a lookup:
starting from a store without the payload's hash, the loser's pre-check
misses, the winner inserts, and the loser's own insert then violates the
hash UNIQUE constraint; `ExpenseRepo.add` has no exception handler, so the
failure propagates as an error instead of returning the winner's id. -/
theorem c8_counterexample :
    dedupeRaceLoser ⟨[⟨1, "other", "", true⟩], 2, [], 1, []⟩ 0 1 "" 1
      (some (.ocons "d" (.jstr "2025-06-01") .onil)) = .error .integrityError := by
  rfl

/-- C8 amended — duplicates are avoided only by the pre-insert dedupe
lookup: when a row with the payload's content hash already exists at
pre-check time, `add` returns that row's id without error; but when the
pre-check misses because a concurrent insert of the same hash won the race,
the loser's insert fails the uniqueness constraint and the error propagates
to the caller uncaught. -/
theorem c8_amended_race_error (st : DBState) (d : Int) (a : ℚ) (desc : String)
    (cid : Nat) (raw : JObj) (hp : raw ≠ .onil) (i : Nat)
    (hfind : findIdByHash st (hash raw) = some i) (hi : 1 ≤ i) :
    addExpense st d a desc cid (some raw) true = .ok (i, st) ∧
    (∀ st' : DBState, (∃ r ∈ st'.expenses, r.hash = some (hash raw)) →
      insertExpense st' d a desc cid (some (hash raw)) = .error .integrityError) := by
  constructor
  · have hkey : keyForRaw (some raw) = some (hash raw) := by
      cases raw with
      | onil => exact absurd rfl hp
      | ocons k v t => rfl
    have hi0 : ¬(i = 0) := by omega
    simp [addExpense, hkey, dedupeHit, hash_ne_empty raw, hfind, hi0]
  · rintro st' ⟨r, hr, hrk⟩
    have hany : st'.expenses.any (fun x => decide (x.hash = some (hash raw))) = true := by
      rw [List.any_eq_true]
      exact ⟨r, hr, by simpa using hrk⟩
    simp [insertExpense, hany]

/-- C8 amended witness: a store already holding the hash of the payload. -/
theorem c8_amended_race_error_witness :
    ((JObj.ocons "d" (.jstr "2025-06-01") .onil) ≠ .onil) ∧
    findIdByHash ⟨[], 1, [⟨1, 0, 1, "", 1,
        some (hash (.ocons "d" (.jstr "2025-06-01") .onil))⟩], 2, []⟩
      (hash (.ocons "d" (.jstr "2025-06-01") .onil)) = some 1 ∧
    (addExpense ⟨[], 1, [⟨1, 0, 1, "", 1,
        some (hash (.ocons "d" (.jstr "2025-06-01") .onil))⟩], 2, []⟩
        0 1 "" 1 (some (.ocons "d" (.jstr "2025-06-01") .onil)) true =
      .ok (1, ⟨[], 1, [⟨1, 0, 1, "", 1,
        some (hash (.ocons "d" (.jstr "2025-06-01") .onil))⟩], 2, []⟩) ∧
     (∀ st' : DBState, (∃ r ∈ st'.expenses,
        r.hash = some (hash (.ocons "d" (.jstr "2025-06-01") .onil))) →
       insertExpense st' 0 1 "" 1
         (some (hash (.ocons "d" (.jstr "2025-06-01") .onil))) = .error .integrityError)) :=
  ⟨fun h => JObj.noConfusion h, by decide,
    c8_amended_race_error ⟨[], 1, [⟨1, 0, 1, "", 1,
        some (hash (.ocons "d" (.jstr "2025-06-01") .onil))⟩], 2, []⟩
      0 1 "" 1 (.ocons "d" (.jstr "2025-06-01") .onil) (fun h => JObj.noConfusion h) 1
      (by decide) (le_refl 1)⟩

/-! ## Batch classification (C9) -/

/-- The classifier collaborator used in concrete scenarios: always answers
`"other"`. -/
def oracleOther : JObj → List String → String := fun _ _ => "other"

/-- C9 counterexample — the vocabulary is not fetched at most once per
batch: classifying a batch of two distinct uncached payloads runs the miss
path — and with it the Category Store vocabulary fetch — twice, because
`classify_batch` simply calls `classify` per item and `classify` fetches on
every miss. -/
theorem c9_counterexample :
    ¬((classify_batch oracleOther
        ⟨[⟨1, "other", "Everything else / fallback", true⟩], 2, [], 1, []⟩
        [.ocons "a" (.jint 1) .onil, .ocons "a" (.jint 2) .onil]).2.2 ≤ 1) := by
  decide

theorem classify_batch_count_le (oracle : JObj → List String → String)
    (st : DBState) (txs : List JObj) :
    (classify_batch oracle st txs).2.2 ≤ txs.length := by
  induction txs generalizing st with
  | nil => simp [classify_batch]
  | cons tx rest ih =>
    have hc : (classify oracle st tx).2.2 ≤ 1 := by
      unfold classify
      cases cacheLookup st tx <;> simp
    calc (classify_batch oracle st (tx :: rest)).2.2
        = (classify oracle st tx).2.2 +
            (classify_batch oracle (classify oracle st tx).2.1 rest).2.2 := rfl
      _ ≤ 1 + rest.length := Nat.add_le_add hc (ih _)
      _ = (tx :: rest).length := by simp [Nat.add_comm]

/-- C9 amended — the vocabulary fetch is per cache-missing item, not per
batch: processing a batch item adds one miss-path execution (vocabulary
fetch plus collaborator call) exactly when that item misses the cache at its
turn, and zero when it hits; in total the fetch count is bounded by the
batch length, not by 1. -/
theorem c9_amended_fetch_per_miss (oracle : JObj → List String → String)
    (st : DBState) (tx : JObj) (txs : List JObj) :
    (classify_batch oracle st (tx :: txs)).2.2 =
      (if (cacheLookup st tx).isSome then 0 else 1) +
        (classify_batch oracle (classify oracle st tx).2.1 txs).2.2 ∧
    (classify_batch oracle st (tx :: txs)).2.2 ≤ (tx :: txs).length := by
  refine ⟨?_, classify_batch_count_le oracle st (tx :: txs)⟩
  show (classify oracle st tx).2.2 +
      (classify_batch oracle (classify oracle st tx).2.1 txs).2.2 = _
  congr 1
  cases hl : cacheLookup st tx <;> simp [classify, hl]

/-! ## Reporting lemmas (C6) -/

theorem totals_inner_rows (st : DBState) (start_date end_date : Int)
    (oa : Option Bool) (row : TotalRow)
    (hrow : row ∈ totals_by_category_between st start_date end_date oa false "desc" none 0) :
    ∃ e ∈ st.expenses, e.category_id = row.category_id ∧
      start_date ≤ e.date ∧ e.date ≤ end_date := by
  simp only [totals_by_category_between, Bool.false_eq_true, if_false,
    if_neg (by decide : ¬(("desc" : String) = "asc"))] at hrow
  rw [List.mem_insertionSort, List.mem_filterMap] at hrow
  obtain ⟨cat, hcmem, hcat⟩ := hrow
  cases hmc : st.expenses.filter (fun e =>
      decide (e.category_id = cat.id) && expInRange start_date end_date e) with
  | nil => rw [hmc] at hcat; cases hcat
  | cons e es =>
    rw [hmc] at hcat
    have hrow_eq : (⟨cat.id, cat.name, cat.is_active,
        ((e :: es).map (fun e => e.amount)).sum⟩ : TotalRow) = row :=
      Option.some.inj hcat
    have he : e ∈ st.expenses.filter (fun e =>
        decide (e.category_id = cat.id) && expInRange start_date end_date e) :=
      hmc ▸ List.mem_cons_self e es
    rw [List.mem_filter, Bool.and_eq_true, decide_eq_true_eq] at he
    obtain ⟨hemem, hecat, herange⟩ := he
    rw [expInRange, Bool.and_eq_true, decide_eq_true_eq, decide_eq_true_eq] at herange
    exact ⟨e, hemem, by rw [← hrow_eq]; exact hecat, herange⟩

/-- C6 — `totalsByCategory` and `includeZero`: for an active category with
no expenses in the range, `include_zero = true` produces a row for it with
total 0, `include_zero = false` produces no row for it, and with
`include_zero = false` every returned row's category has at least one
expense in the range. -/
theorem c6_totals_include_zero (st : DBState) (start_date end_date : Int)
    (c : CategoryRow) (hc : c ∈ st.categories) (hact : c.is_active = true)
    (hno : ∀ e ∈ st.expenses, e.category_id = c.id →
      ¬(start_date ≤ e.date ∧ e.date ≤ end_date)) :
    (∃ row ∈ totals_by_category_between st start_date end_date (some true) true "desc" none 0,
      row.category_id = c.id ∧ row.total = 0) ∧
    (∀ row ∈ totals_by_category_between st start_date end_date (some true) false "desc" none 0,
      row.category_id ≠ c.id) ∧
    (∀ row ∈ totals_by_category_between st start_date end_date (some true) false "desc" none 0,
      ∃ e ∈ st.expenses, e.category_id = row.category_id ∧
        start_date ≤ e.date ∧ e.date ≤ end_date) := by
  have hactp : activePass (some true) c = true := hact
  have hfil : st.expenses.filter (fun e =>
      decide (e.category_id = c.id) && expInRange start_date end_date e) = [] := by
    rw [List.filter_eq_nil_iff]
    intro e he hpred
    rw [Bool.and_eq_true, decide_eq_true_eq] at hpred
    obtain ⟨h1, h2⟩ := hpred
    rw [expInRange, Bool.and_eq_true, decide_eq_true_eq, decide_eq_true_eq] at h2
    exact hno e he h1 h2
  refine ⟨?_, ?_, fun row hrow => totals_inner_rows st start_date end_date (some true) row hrow⟩
  · refine ⟨⟨c.id, c.name, c.is_active, 0⟩, ?_, rfl, rfl⟩
    simp only [totals_by_category_between, if_true,
      if_neg (by decide : ¬(("desc" : String) = "asc"))]
    rw [List.mem_insertionSort, List.mem_map]
    refine ⟨c, List.mem_filter.mpr ⟨hc, hactp⟩, ?_⟩
    rw [hfil]
    rfl
  · intro row hrow hrowc
    obtain ⟨e, hemem, hecat, herange⟩ :=
      totals_inner_rows st start_date end_date (some true) row hrow
    exact hno e hemem (hrowc ▸ hecat) herange

/-- C6 witness: one active category `"groceries"`, an expense dated outside
the queried range. -/
theorem c6_totals_include_zero_witness :
    ((⟨1, "groceries", "", true⟩ : CategoryRow) ∈
      ([⟨1, "groceries", "", true⟩] : List CategoryRow)) ∧
    ((⟨1, "groceries", "", true⟩ : CategoryRow).is_active = true) ∧
    (∃ row ∈ totals_by_category_between
        ⟨[⟨1, "groceries", "", true⟩], 2, [⟨1, 99, 5, "", 1, none⟩], 2, []⟩
        0 10 (some true) true "desc" none 0,
      row.category_id = 1 ∧ row.total = 0) ∧
    (∀ row ∈ totals_by_category_between
        ⟨[⟨1, "groceries", "", true⟩], 2, [⟨1, 99, 5, "", 1, none⟩], 2, []⟩
        0 10 (some true) false "desc" none 0,
      row.category_id ≠ 1) := by
  have h := c6_totals_include_zero
    ⟨[⟨1, "groceries", "", true⟩], 2, [⟨1, 99, 5, "", 1, none⟩], 2, []⟩
    0 10 ⟨1, "groceries", "", true⟩ (by decide) rfl
    (by
      intro e he h1 h2
      rw [List.mem_singleton] at he
      subst he
      exact absurd h2.2 (by decide))
  exact ⟨by decide, rfl, h.1, h.2.1⟩

/-! ## Key-order lemmas (C7)

`keyLeChars` is a total preorder, antisymmetric on the underlying lists;
these facts drive the uniqueness of the sorted key order in the canonical
JSON encoding. -/

theorem char_toNat_inj {a b : Char} (h : a.toNat = b.toNat) : a = b := by
  have ha := Char.ofNat_toNat a
  rw [← ha, h, Char.ofNat_toNat]

theorem keyLeChars_total : ∀ a b : List Char,
    keyLeChars a b = true ∨ keyLeChars b a = true
  | [], t => Or.inl (by cases t <;> rfl)
  | _ :: _, [] => Or.inr rfl
  | a :: as, b :: bs => by
    simp only [keyLeChars]
    rcases Nat.lt_trichotomy a.toNat b.toNat with h | h | h
    · left
      rw [if_pos h]
    · have hab : ¬(a.toNat < b.toNat) := by omega
      have hba : ¬(b.toNat < a.toNat) := by omega
      rw [if_neg hab, if_neg hba, if_neg hba, if_neg hab]
      exact keyLeChars_total as bs
    · right
      rw [if_pos h]

theorem keyLeChars_trans : ∀ a b c : List Char, keyLeChars a b = true →
    keyLeChars b c = true → keyLeChars a c = true
  | [], _, c, _, _ => by cases c <;> rfl
  | _ :: _, [], _, h1, _ => by simp [keyLeChars] at h1
  | _ :: _, _ :: _, [], _, h2 => by simp [keyLeChars] at h2
  | a :: as, b :: bs, c :: cs, h1, h2 => by
    simp only [keyLeChars] at h1 h2 ⊢
    by_cases hab : a.toNat < b.toNat <;> by_cases hbc : b.toNat < c.toNat
    · rw [if_pos (by omega : a.toNat < c.toNat)]
    · rw [if_neg hbc] at h2
      by_cases hcb : c.toNat < b.toNat
      · rw [if_pos hcb] at h2
        cases h2
      · rw [if_pos (by omega : a.toNat < c.toNat)]
    · rw [if_neg hab] at h1
      by_cases hba : b.toNat < a.toNat
      · rw [if_pos hba] at h1
        cases h1
      · rw [if_pos (by omega : a.toNat < c.toNat)]
    · rw [if_neg hab] at h1
      rw [if_neg hbc] at h2
      by_cases hba : b.toNat < a.toNat
      · rw [if_pos hba] at h1
        cases h1
      · by_cases hcb : c.toNat < b.toNat
        · rw [if_pos hcb] at h2
          cases h2
        · rw [if_neg hba] at h1
          rw [if_neg hcb] at h2
          rw [if_neg (by omega : ¬(a.toNat < c.toNat)),
            if_neg (by omega : ¬(c.toNat < a.toNat))]
          exact keyLeChars_trans as bs cs h1 h2

theorem keyLeChars_antisymm : ∀ a b : List Char, keyLeChars a b = true →
    keyLeChars b a = true → a = b
  | [], [], _, _ => rfl
  | [], _ :: _, _, h2 => by simp [keyLeChars] at h2
  | _ :: _, [], h1, _ => by simp [keyLeChars] at h1
  | a :: as, b :: bs, h1, h2 => by
    simp only [keyLeChars] at h1 h2
    by_cases hab : a.toNat < b.toNat
    · rw [if_neg (by omega : ¬(b.toNat < a.toNat)), if_pos hab] at h2
      cases h2
    · by_cases hba : b.toNat < a.toNat
      · rw [if_neg hab, if_pos hba] at h1
        cases h1
      · rw [if_neg hab, if_neg hba] at h1
        rw [if_neg hba, if_neg hab] at h2
        rw [char_toNat_inj (by omega : a.toNat = b.toNat),
          keyLeChars_antisymm as bs h1 h2]

instance : IsTotal (String × List Char) pairLe :=
  ⟨fun a b => keyLeChars_total a.1.data b.1.data⟩

instance : IsTrans (String × List Char) pairLe :=
  ⟨fun _ _ _ hab hbc => keyLeChars_trans _ _ _ hab hbc⟩

/-- Strict-key-order-or-equal: an antisymmetric relation that key-sorted
lists with duplicate-free keys satisfy, forcing sorted permutations to be
equal. -/
def pairLtEq (a b : String × List Char) : Prop :=
  (keyLe a.1 b.1 = true ∧ a.1 ≠ b.1) ∨ a = b

instance : IsAntisymm (String × List Char) pairLtEq :=
  ⟨fun a b h1 h2 => by
    rcases h1 with ⟨hle1, hne1⟩ | rfl
    · rcases h2 with ⟨hle2, _⟩ | rfl
      · exact absurd (String.ext (keyLeChars_antisymm _ _ hle1 hle2)) hne1
      · rfl
    · rfl⟩

theorem sorted_pairLtEq (l : List (String × List Char))
    (hs : l.Sorted pairLe) (hnd : (l.map Prod.fst).Nodup) : l.Sorted pairLtEq := by
  have h2 : l.Pairwise (fun a b => a.1 ≠ b.1) := List.pairwise_map.mp hnd
  exact (hs.and h2).imp (fun h => Or.inl h)

/-! ## Field-list lemmas (C7) -/

theorem nodupKeys_nodup : ∀ ks : List String, nodupKeys ks = true → ks.Nodup
  | [], _ => List.nodup_nil
  | k :: ks, h => by
    rw [nodupKeys, Bool.and_eq_true] at h
    refine List.nodup_cons.mpr ⟨?_, nodupKeys_nodup ks h.2⟩
    intro hmem
    have hc : ks.contains k = true := List.elem_iff.mpr hmem
    have := h.1
    rw [hc] at this
    cases this

theorem dumpFields_keys : ∀ fs : JObj, (dumpFields fs).map Prod.fst = keysOf fs
  | .onil => rfl
  | .ocons k v t => by simp [dumpFields, keysOf, dumpFields_keys t]

theorem dumpFields_length : ∀ fs : JObj, (dumpFields fs).length = olength fs
  | .onil => rfl
  | .ocons k v t => by simp [dumpFields, olength, dumpFields_length t]

theorem lookupField_wf : ∀ (b : JObj) (k : String) (v2 : JValue),
    wfFields b = true → lookupField k b = some v2 → wfb v2 = true
  | .onil, _, _, _, h => by cases h
  | .ocons k2 v t, k, v2, hwf, h => by
    rw [wfFields, Bool.and_eq_true] at hwf
    rw [lookupField] at h
    by_cases hk : k2 = k
    · rw [if_pos hk] at h
      cases h
      exact hwf.1
    · rw [if_neg hk] at h
      exact lookupField_wf t k v2 hwf.2 h

theorem lookupField_mem : ∀ (b : JObj) (k : String) (v2 : JValue),
    lookupField k b = some v2 → (k, dumps v2) ∈ dumpFields b
  | .onil, _, _, h => by cases h
  | .ocons k2 v t, k, v2, h => by
    rw [lookupField] at h
    by_cases hk : k2 = k
    · rw [if_pos hk] at h
      cases h
      subst hk
      exact List.mem_cons_self _ _
    · rw [if_neg hk] at h
      exact List.mem_cons_of_mem _ (lookupField_mem t k v2 h)

/-! ## Serialization congruence (C7) -/

theorem fields_subset (n : Nat)
    (ih : ∀ v1 v2 : JValue, sizeOf v1 ≤ n → wfb v1 = true → wfb v2 = true →
      jeqb v1 v2 = true → dumps v1 = dumps v2) :
    ∀ f1 f2 : JObj, sizeOf f1 ≤ n → wfFields f1 = true → wfFields f2 = true →
      jeqFields f1 f2 = true → ∀ p ∈ dumpFields f1, p ∈ dumpFields f2
  | .onil, f2, _, _, _, _ => by
    intro p hp
    cases hp
  | .ocons k v t, f2, hsz, w1, w2, he => by
    rw [wfFields, Bool.and_eq_true] at w1
    rw [jeqFields, Bool.and_eq_true] at he
    obtain ⟨hematch, herest⟩ := he
    cases hlk : lookupField k f2 with
    | none =>
      rw [hlk] at hematch
      cases hematch
    | some v2 =>
      rw [hlk] at hematch
      intro p hp
      rcases List.mem_cons.mp hp with rfl | hp
      · have hsv : sizeOf v ≤ n := by
          simp only [JObj.ocons.sizeOf_spec] at hsz
          omega
        have hd : dumps v = dumps v2 :=
          ih v v2 hsv w1.1 (lookupField_wf f2 k v2 w2 hlk) hematch
        rw [show ((k, dumps v) : String × List Char) = (k, dumps v2) from by rw [hd]]
        exact lookupField_mem f2 k v2 hlk
      · have hst : sizeOf t ≤ n := by
          simp only [JObj.ocons.sizeOf_spec] at hsz
          omega
        exact fields_subset n ih t f2 hst w1.2 w2 herest p hp

theorem arr_congr (n : Nat)
    (ih : ∀ v1 v2 : JValue, sizeOf v1 ≤ n → wfb v1 = true → wfb v2 = true →
      jeqb v1 v2 = true → dumps v1 = dumps v2) :
    ∀ a1 a2 : JArr, sizeOf a1 ≤ n → wfArr a1 = true → wfArr a2 = true →
      jeqArr a1 a2 = true → dumpArr a1 = dumpArr a2
  | .anil, .anil, _, _, _, _ => rfl
  | .anil, .acons _ _, _, _, _, he => by simp [jeqArr] at he
  | .acons _ _, .anil, _, _, _, he => by simp [jeqArr] at he
  | .acons v t, .acons v2 t2, hsz, w1, w2, he => by
    rw [jeqArr, Bool.and_eq_true] at he
    rw [wfArr, Bool.and_eq_true] at w1 w2
    have hsv : sizeOf v ≤ n := by
      simp only [JArr.acons.sizeOf_spec] at hsz
      omega
    have hst : sizeOf t ≤ n := by
      simp only [JArr.acons.sizeOf_spec] at hsz
      omega
    rw [dumpArr, dumpArr, ih v v2 hsv w1.1 w2.1 he.1,
      arr_congr n ih t t2 hst w1.2 w2.2 he.2]

theorem dumps_congr_aux : ∀ n : Nat, ∀ v1 v2 : JValue, sizeOf v1 ≤ n →
    wfb v1 = true → wfb v2 = true → jeqb v1 v2 = true → dumps v1 = dumps v2 := by
  intro n
  induction n with
  | zero =>
    intro v1 v2 hsz _ _ _
    exfalso
    cases v1 <;>
      simp only [JValue.jnull.sizeOf_spec, JValue.jbool.sizeOf_spec,
        JValue.jint.sizeOf_spec, JValue.jstr.sizeOf_spec, JValue.jarr.sizeOf_spec,
        JValue.jobj.sizeOf_spec] at hsz <;>
      omega
  | succ n ih =>
    intro v1 v2 hsz w1 w2 he
    cases v1 <;> cases v2 <;> (try (solve | simp [jeqb] at he))
    · rfl
    · simp only [jeqb, beq_iff_eq] at he
      rw [he]
    · simp only [jeqb, beq_iff_eq] at he
      rw [he]
    · simp only [jeqb, beq_iff_eq] at he
      rw [he]
    · rename_i a1 a2
      simp only [jeqb] at he
      simp only [wfb] at w1 w2
      have hsa : sizeOf a1 ≤ n := by
        simp only [JValue.jarr.sizeOf_spec] at hsz
        omega
      rw [dumps, dumps, arr_congr n ih a1 a2 hsa w1 w2 he]
    · rename_i f1 f2
      simp only [jeqb, Bool.and_eq_true, beq_iff_eq] at he
      simp only [wfb, Bool.and_eq_true] at w1 w2
      have hsf : sizeOf f1 ≤ n := by
        simp only [JValue.jobj.sizeOf_spec] at hsz
        omega
      have hsub := fields_subset n ih f1 f2 hsf w1.2 w2.2 he.2
      have hnd1k : ((dumpFields f1).map Prod.fst).Nodup := by
        rw [dumpFields_keys]
        exact nodupKeys_nodup _ w1.1
      have hnd2k : ((dumpFields f2).map Prod.fst).Nodup := by
        rw [dumpFields_keys]
        exact nodupKeys_nodup _ w2.1
      have hnd1 : (dumpFields f1).Nodup := hnd1k.of_map
      have hlen : (dumpFields f2).length ≤ (dumpFields f1).length := by
        rw [dumpFields_length, dumpFields_length, he.1]
      have hperm : List.Perm (dumpFields f1) (dumpFields f2) :=
        (List.subperm_of_subset hnd1 hsub).perm_of_length_le hlen
      have hsorteq : (dumpFields f1).insertionSort pairLe =
          (dumpFields f2).insertionSort pairLe := by
        apply List.eq_of_perm_of_sorted (r := pairLtEq)
        · exact ((List.perm_insertionSort pairLe _).trans hperm).trans
            (List.perm_insertionSort pairLe _).symm
        · apply sorted_pairLtEq
          · exact List.sorted_insertionSort pairLe _
          · exact (((List.perm_insertionSort pairLe _).map Prod.fst).nodup_iff).mpr hnd1k
        · apply sorted_pairLtEq
          · exact List.sorted_insertionSort pairLe _
          · exact (((List.perm_insertionSort pairLe _).map Prod.fst).nodup_iff).mpr hnd2k
      rw [dumps, dumps, hsorteq]

/-- C7 — hash stability under key reordering: for well-formed records
(duplicate-free keys at every nesting level) that are deep-equal after
key-order-insensitive comparison, the content hashes coincide, and the
digest is a fixed-length (64-character) lowercase hexadecimal string. -/
theorem c7_hash_stable (r1 r2 : JObj)
    (h1 : wfb (.jobj r1) = true) (h2 : wfb (.jobj r2) = true)
    (heq : jeqb (.jobj r1) (.jobj r2) = true) :
    hash r1 = hash r2 ∧ (hash r1).length = 64 ∧ ∀ c ∈ (hash r1).data, c ∈ hexDigits := by
  refine ⟨?_, hash_length r1, sha256hex_chars _⟩
  have hd := dumps_congr_aux (sizeOf (JValue.jobj r1)) (.jobj r1) (.jobj r2)
    le_rfl h1 h2 heq
  unfold hash hashText normalize_for_hash
  rw [hd]

/-- C7 witness: two two-field records with the fields given in opposite
orders, one value itself a nested object with reordered fields. -/
theorem c7_hash_stable_witness :
    wfb (.jobj (.ocons "a" (.jint 1)
      (.ocons "b" (.jobj (.ocons "x" (.jint 2) (.ocons "y" (.jstr "s") .onil))) .onil))) = true ∧
    wfb (.jobj (.ocons "b" (.jobj (.ocons "y" (.jstr "s") (.ocons "x" (.jint 2) .onil)))
      (.ocons "a" (.jint 1) .onil))) = true ∧
    jeqb (.jobj (.ocons "a" (.jint 1)
        (.ocons "b" (.jobj (.ocons "x" (.jint 2) (.ocons "y" (.jstr "s") .onil))) .onil)))
      (.jobj (.ocons "b" (.jobj (.ocons "y" (.jstr "s") (.ocons "x" (.jint 2) .onil)))
        (.ocons "a" (.jint 1) .onil))) = true ∧
    (hash (.ocons "a" (.jint 1)
        (.ocons "b" (.jobj (.ocons "x" (.jint 2) (.ocons "y" (.jstr "s") .onil))) .onil)) =
      hash (.ocons "b" (.jobj (.ocons "y" (.jstr "s") (.ocons "x" (.jint 2) .onil)))
        (.ocons "a" (.jint 1) .onil)) ∧
     (hash (.ocons "a" (.jint 1)
        (.ocons "b" (.jobj (.ocons "x" (.jint 2) (.ocons "y" (.jstr "s") .onil))) .onil))).length = 64 ∧
     ∀ c ∈ (hash (.ocons "a" (.jint 1)
        (.ocons "b" (.jobj (.ocons "x" (.jint 2) (.ocons "y" (.jstr "s") .onil))) .onil))).data,
       c ∈ hexDigits) :=
  ⟨by decide, by decide, by decide,
    c7_hash_stable
      (.ocons "a" (.jint 1)
        (.ocons "b" (.jobj (.ocons "x" (.jint 2) (.ocons "y" (.jstr "s") .onil))) .onil))
      (.ocons "b" (.jobj (.ocons "y" (.jstr "s") (.ocons "x" (.jint 2) .onil)))
        (.ocons "a" (.jint 1) .onil))
      (by decide) (by decide) (by decide)⟩

/-- C10 — the offset of the expense range query takes effect only together
with a limit: with `limit = None` the result is the full ordered list, the
same for every offset. -/
theorem c10_offset_ignored_without_limit (st : DBState) (start end_ : Int)
    (category_id : Option Nat) (offset : Nat) (order : ResultOrder) :
    expensesBetween st start end_ category_id none offset order =
      expensesBetween st start end_ category_id none 0 order := rfl

end Penny
